import Mathlib

/-!
Verification of the bill_analysis normalization / deduplication / classification
pipeline.  The Python sources under src/bill_analysis are shallowly embedded:
pandas DataFrames become lists of `Row` records, nullable cells (NaN / NaT)
become `Option` fields, float amounts become `ℚ`, and the per-row lambdas of
the processors become Lean functions.  Library behaviour that the code relies
on (pandas `to_numeric` / `to_datetime` with `errors="coerce"`, `str.strip`,
`str.lower`, stable ordering of `sort_values` with `na_position='last'`) is
modelled by explicit executable definitions, each documented at its
declaration.
-/

namespace BillAnalysis

/-- A timestamp value (model of a non-null pandas `Timestamp`).  The dedup key
truncates the string form `"YYYY-MM-DD HH:MM:SS"` to 16 characters, i.e. it
drops the seconds; this is modelled by `minuteKey` below. -/
structure DateTime where
  year : Nat
  month : Nat
  day : Nat
  hour : Nat
  minute : Nat
  second : Nat
deriving DecidableEq

/-- `str(t)[:16]` on a timestamp keeps year, month, day, hour and minute. -/
def DateTime.minuteKey (t : DateTime) : Nat × Nat × Nat × Nat × Nat :=
  (t.year, t.month, t.day, t.hour, t.minute)

/-- One row of the canonical transaction frame produced by
`BaseParser._normalize_dataframe` (base.py:34-72).  Field names translate the
Chinese column names: 时间 time, 平台 platform, 类型 typ, 对方 counterparty,
金额 amount, 收/支 direction, 商品描述 desc, 分类 category, 原始描述 rawDesc.
Cells that can hold NaN / NaT are `Option`s. -/
structure Row where
  time : Option DateTime
  platform : String
  typ : Option String
  counterparty : Option String
  amount : Option ℚ
  direction : String
  desc : Option String
  category : Option String
  rawDesc : Option String
deriving DecidableEq

/- ---------------- string helpers (models of Python str methods) ------------- -/

/-- Check whether `needle` occurs at the head of `hay`. -/
def matchHere : List Char → List Char → Bool
  | [], _ => true
  | _ :: _, [] => false
  | a :: as, b :: bs => a == b && matchHere as bs

/-- Check whether `needle` occurs anywhere inside `hay`; model of Python's
`needle in hay` substring test. -/
def matchWithin (needle : List Char) : List Char → Bool
  | [] => matchHere needle []
  | c :: cs => matchHere needle (c :: cs) || matchWithin needle cs

/-- `needle in hay` on strings. -/
def strContainsSub (hay needle : String) : Bool :=
  matchWithin needle.toList hay.toList

/-- Model of Python `str.lower()` / `re.IGNORECASE`: lower-case every
character (ASCII letters change, CJK characters are fixed points). -/
def lowerStr (s : String) : String := ⟨s.toList.map Char.toLower⟩

/-- Whitespace recognised by `str.strip()`. -/
def isSpaceChar (c : Char) : Bool := c == ' ' || c == '\t' || c == '\n' || c == '\r'

/-- Model of Python `str.strip()`: drop leading and trailing whitespace. -/
def trimChars (s : String) : String :=
  ⟨((s.toList.dropWhile isSpaceChar).reverse.dropWhile isSpaceChar).reverse⟩

/-- `Series.str.replace(c, "", regex=False)` with a single-character pattern
removes every occurrence of that character. -/
def removeChar (c : Char) (s : String) : String := ⟨s.toList.filter (· ≠ c)⟩

/- ---------------- numeric parsing (model of pd.to_numeric) ----------------- -/

def digitVal (c : Char) : Nat := c.toNat - 48

/-- Numeric value of a digit string (caller checks `all isDigit`). -/
def digitsVal (cs : List Char) : Nat :=
  cs.foldl (fun acc c => 10 * acc + digitVal c) 0

/-- Unsigned decimal literal: digits with at most one decimal point, at least
one digit overall.  Anything else (currency signs, thousands separators,
letters) fails.  Returns (integer part, fraction digits value, fraction
length). -/
def parseUnsignedParts (cs : List Char) : Option (Nat × Nat × Nat) :=
  match cs.span (· ≠ '.') with
  | (ip, []) =>
    if !ip.isEmpty && ip.all Char.isDigit then some (digitsVal ip, 0, 0) else none
  | (ip, _ :: fp) =>
    if (!ip.isEmpty || !fp.isEmpty) && ip.all Char.isDigit && fp.all Char.isDigit then
      some (digitsVal ip, digitsVal fp, fp.length)
    else none

/-- Digits of an optionally signed decimal literal: sign flag plus the
unsigned parts. -/
def parseDecimalParts (s : String) : Option (Bool × Nat × Nat × Nat) :=
  match s.toList with
  | '-' :: rest => (parseUnsignedParts rest).map fun p => (true, p)
  | '+' :: rest => (parseUnsignedParts rest).map fun p => (false, p)
  | cs => (parseUnsignedParts cs).map fun p => (false, p)

/-- Rational value of parsed decimal digits. -/
def partsToRat : Bool × Nat × Nat × Nat → ℚ
  | (neg, ip, fp, fl) =>
    (if neg then -1 else 1) * ((ip : ℚ) + (fp : ℚ) / ((10 : ℚ) ^ fl))

/-- Model of `pd.to_numeric(s, errors="coerce")` on a string cell: parse an
optionally signed decimal literal; unparsable strings coerce to `none`
(NaN). -/
def parseDecimal (s : String) : Option ℚ :=
  (parseDecimalParts s).map partsToRat

/- ---------------- sign reconciliation (base.py:62-70) --------------------- -/

/-- Sign reconciliation of `BaseParser._normalize_dataframe` (base.py:62-70):
rows whose 收/支 field equals 支出 (expense) get `-|amount|`, rows whose 收/支
field equals 收入 (income) get `|amount|`, all other rows keep their amount.
The same two masked assignments also appear in wechat.py:62-63 and
alipay.py:63-64. -/
def reconcileSign (dir : String) (a : ℚ) : ℚ :=
  if dir = "支出" then -|a| else if dir = "收入" then |a| else a

/-- Amount column of `_normalize_dataframe` (base.py:55, 62-70):
`pd.to_numeric(..., errors="coerce").fillna(0)` followed by the sign masks.
`rawAmount = none` models a NaN cell. -/
def normalizedAmount (dir : String) (rawAmount : Option ℚ) : ℚ :=
  reconcileSign dir (rawAmount.getD 0)

/- ---------------- platform amount pipelines (wechat.py / alipay.py) -------- -/

/-- wechat.py:55-59: the raw amount string has `¥`, `￥` and `,` removed and is
then coerced to a number (`errors="coerce"`, `fillna(0)`). -/
def wechatCoerceAmount (raw : String) : ℚ :=
  (parseDecimal (removeChar ',' (removeChar '￥' (removeChar '¥' raw)))).getD 0

/-- wechat.py:55-63 followed by `_normalize_dataframe` (base.py:55, 62-70):
strip currency characters, coerce, apply the direction masks, then the
normalizer re-applies the same masks to the already numeric column. -/
def wechatNormalizedAmount (raw dir : String) : ℚ :=
  reconcileSign dir (reconcileSign dir (wechatCoerceAmount raw))

/-- alipay.py:59-60: `pd.to_numeric(df["金额"], errors="coerce").fillna(0)` applied
directly to the raw string — no currency-symbol or separator stripping. -/
def alipayCoerceAmount (raw : String) : ℚ :=
  (parseDecimal raw).getD 0

/-- alipay.py:59-64 followed by `_normalize_dataframe` (base.py:55, 62-70). -/
def alipayNormalizedAmount (raw dir : String) : ℚ :=
  reconcileSign dir (reconcileSign dir (alipayCoerceAmount raw))

/- ---------------- CCB time standardization (ccb.py:45-51) ------------------ -/

/-- A raw value of the CCB 时间 column before conversion: an integer cell (the
column has integer dtype, typical YYYYMMDD bank export), a string cell, or a
missing cell. -/
inductive RawTime where
  | int : Int → RawTime
  | str : String → RawTime
  | null : RawTime
deriving DecidableEq

/-- `pd.to_datetime(s, format="%Y%m%d", errors="coerce")`: exactly eight
digits, month 1-12 and day 1-31 (day-in-month bounds beyond 31 abstracted);
anything else coerces to NaT (`none`). -/
def parseYYYYMMDD (s : String) : Option DateTime :=
  match s.toList with
  | [y1, y2, y3, y4, m1, m2, d1, d2] =>
    if y1.isDigit && y2.isDigit && y3.isDigit && y4.isDigit &&
       m1.isDigit && m2.isDigit && d1.isDigit && d2.isDigit then
      let y := digitsVal [y1, y2, y3, y4]
      let mo := digitsVal [m1, m2]
      let d := digitsVal [d1, d2]
      if 1 ≤ mo && mo ≤ 12 && 1 ≤ d && d ≤ 31 then
        some ⟨y, mo, d, 0, 0, 0⟩
      else none
    else none
  | _ => none

def parse2Digits (a b : Char) : Option Nat :=
  if a.isDigit && b.isDigit then some (digitVal a * 10 + digitVal b) else none

/-- `"YYYY-MM-DD"` or `"YYYY/MM/DD"` with basic range checks. -/
def parseDate10 : List Char → Option (Nat × Nat × Nat)
  | [y1, y2, y3, y4, s1, m1, m2, s2, d1, d2] =>
    if ((s1 == '-' && s2 == '-') || (s1 == '/' && s2 == '/')) &&
       y1.isDigit && y2.isDigit && y3.isDigit && y4.isDigit then
      match parse2Digits m1 m2, parse2Digits d1 d2 with
      | some mo, some d =>
        if 1 ≤ mo && mo ≤ 12 && 1 ≤ d && d ≤ 31 then
          some (digitsVal [y1, y2, y3, y4], mo, d)
        else none
      | _, _ => none
    else none
  | _ => none

/-- `"HH:MM:SS"`. -/
def parseClock : List Char → Option (Nat × Nat × Nat)
  | [h1, h2, c1, m1, m2, c2, s1, s2] =>
    if c1 == ':' && c2 == ':' then
      match parse2Digits h1 h2, parse2Digits m1 m2, parse2Digits s1 s2 with
      | some h, some mi, some se =>
        if h < 24 && mi < 60 && se < 60 then some (h, mi, se) else none
      | _, _, _ => none
    else none
  | _ => none

/-- Model of the general parser `pd.to_datetime(s, errors="coerce")` on a
string: accept a date (`-` or `/` separated) optionally followed by a space
and a clock; every other string coerces to NaT (`none`) instead of raising. -/
def generalTimeParse (s : String) : Option DateTime :=
  let cs := s.toList
  match parseDate10 (cs.take 10) with
  | none => none
  | some (y, mo, d) =>
    if cs.length = 10 then some ⟨y, mo, d, 0, 0, 0⟩
    else match cs.drop 10 with
      | ' ' :: rest => (parseClock rest).map fun t => ⟨y, mo, d, t.1, t.2.1, t.2.2⟩
      | _ => none

/-- Time standardization of `CCBParser.parse` (ccb.py:45-51): an
integer-typed 时间 column is first cast to string and read with
`format="%Y%m%d"`, otherwise the general parser runs; both use
`errors="coerce"`, so failures become NaT rather than exceptions.  (The
fallback `BaseParser._standardize_time` in base.py:74-118 has no callers; the
parse methods use the coercing path modelled here.) -/
def ccbStandardizeTime : RawTime → Option DateTime
  | .int n => parseYYYYMMDD (toString n)
  | .str s => generalTimeParse s
  | .null => none

/- ---------------- DataCleaner (cleaner.py) --------------------------------- -/

/-- `DataCleaner.TRANSFER_KEYWORDS` (cleaner.py:11-25). -/
def TRANSFER_KEYWORDS : List String :=
  ["充值", "提现", "转入", "转出", "余额", "零钱", "财付通",
   "支付宝", "微信", "还款", "信用卡", "花呗", "借呗"]

/-- The fields inspected by `is_transfer_transaction` (cleaner.py:88):
原始描述, 商品描述, 对方, 类型, 分类, in that order. -/
def checkedFieldsOf (r : Row) : List (Option String) :=
  [r.rawDesc, r.desc, r.counterparty, r.typ, r.category]

/-- `is_transfer_transaction` (cleaner.py:85-98): some non-null checked field
contains some transfer keyword, case-insensitively. -/
def isTransferRow (r : Row) : Bool :=
  (checkedFieldsOf r).any fun v =>
    match v with
    | some s => TRANSFER_KEYWORDS.any fun kw => strContainsSub (lowerStr s) (lowerStr kw)
    | none => false

/-- `drop_duplicates()` (cleaner.py:67): remove rows equal to an earlier row
in all fields, keeping the first occurrence. -/
def dropDupRows (seen : List Row) : List Row → List Row
  | [] => []
  | x :: xs => if x ∈ seen then dropDupRows seen xs else x :: dropDupRows (x :: seen) xs

/-- `DataCleaner.clean` (cleaner.py:31-72): empty passthrough, then
`dropna(subset=["时间","金额"])`, the transfer filter, `金额 < 0`, `金额 != 0`,
and `drop_duplicates()`. -/
def clean (l : List Row) : List Row :=
  if l.isEmpty then l else
  let c1 := l.filter fun r => r.time.isSome && r.amount.isSome
  let c2 := c1.filter fun r => !(isTransferRow r)
  let c3 := c2.filter fun r =>
    match r.amount with
    | some a => decide (a < 0)
    | none => false
  let c4 := c3.filter fun r =>
    match r.amount with
    | some a => decide (a ≠ 0)
    | none => true
  dropDupRows [] c4

/- ---------------- Deduplicator (dedup.py) ---------------------------------- -/

/-- `Deduplicator.platform_priority` (dedup.py:13): `{"微信": 1, "支付宝": 2,
"建设银行": 3}`; `Series.map` yields NaN (`none`) for any other platform. -/
def platformPriority (p : String) : Option Nat :=
  if p = "微信" then some 1
  else if p = "支付宝" then some 2
  else if p = "建设银行" then some 3
  else none

/-- Sort key used for `sort_values("priority")`: mapped priorities 1-3, with
NaN placed after every number (pandas default `na_position='last'`), modelled
by the sentinel 1000. -/
def rankOf (r : Row) : Nat := (platformPriority r.platform).getD 1000

/-- `f"{abs(float(x)):.2f}"`: the absolute amount formatted to two decimals,
modelled as the amount in cents (rounding to nearest). -/
def amountKeyVal (a : ℚ) : ℤ := round (|a| * 100)

/-- `str(row["对方"]).strip()` with NaN mapped to the empty string (the NaN
branch of `make_key` also produces `""`). -/
def partyKeyOf (r : Row) : String :=
  match r.counterparty with
  | some s => trimChars s
  | none => ""

/-- `Deduplicator._generate_dedup_key` (dedup.py:60-84): time truncated to the
minute, absolute amount to two decimals, trimmed counterparty; NaN time and
NaN amount give empty key components (`none`). -/
def dedupKeyOf (r : Row) : Option (Nat × Nat × Nat × Nat × Nat) × Option ℤ × String :=
  (r.time.map DateTime.minuteKey, r.amount.map amountKeyVal, partyKeyOf r)

/-- Rows annotated with their original position within the input frame. -/
abbrev IRow := Nat × Row

def keyOf (x : IRow) : Option (Nat × Nat × Nat × Nat × Nat) × Option ℤ × String :=
  dedupKeyOf x.2

/-- Ordering realised by `data.sort_values("priority")` (dedup.py:40-41) on
the index-annotated frame: by mapped priority with NaN last, ties keeping the
original row order (stable sort model of the pandas sort). -/
def lexLE (a b : IRow) : Prop :=
  rankOf a.2 < rankOf b.2 ∨ (rankOf a.2 = rankOf b.2 ∧ a.1 ≤ b.1)

instance : DecidableRel lexLE := fun a b => by unfold lexLE; infer_instance

instance : IsTotal IRow lexLE := ⟨fun a b => by unfold lexLE; omega⟩

instance : IsTrans IRow lexLE := ⟨fun a b c hab hbc => by
  unfold lexLE at *; omega⟩

/-- The sorted frame. -/
def sortRows (l : List IRow) : List IRow := List.insertionSort lexLE l

/-- `data.duplicated(subset=["dedup_key"], keep="first")` (dedup.py:44): mark
a row `true` iff its dedup key already occurred (in `seen`, accumulating keys
of the rows already scanned). -/
def markDups (seen : List (Option (Nat × Nat × Nat × Nat × Nat) × Option ℤ × String)) :
    List IRow → List (IRow × Bool)
  | [] => []
  | x :: xs => (x, decide (keyOf x ∈ seen)) :: markDups (keyOf x :: seen) xs

/-- `Deduplicator.deduplicate` (dedup.py:15-58) keeping the original row
positions: empty shortcut, dedup keys, priority sort, duplicate marking, then
the partition into retained rows and duplicates. -/
def deduplicateIdx (l : List Row) : List IRow × List IRow :=
  if l = [] then ([], []) else
    let marked := markDups [] (sortRows l.enum)
    ((marked.filter fun p => !p.2).map Prod.fst,
     (marked.filter fun p => p.2).map Prod.fst)

/-- `Deduplicator.deduplicate` as seen by the caller: the two returned frames
(helper columns dropped, index reset). -/
def deduplicate (l : List Row) : List Row × List Row :=
  ((deduplicateIdx l).1.map Prod.snd, (deduplicateIdx l).2.map Prod.snd)

/-- The position-annotated row `x` is the strict lexicographic minimum of its
dedup-key group in (mapped platform priority with NaN sorting last, original
position) — the row `sort_values` + `duplicated(keep="first")` retains. -/
def IsGroupMin (l : List Row) (x : IRow) : Prop :=
  ∀ y ∈ l.enum, y ≠ x → keyOf y = keyOf x →
    (rankOf x.2 < rankOf y.2 ∨ (rankOf x.2 = rankOf y.2 ∧ x.1 < y.1))

/-- Comparison on the priority column alone. -/
def rankLE (a b : IRow) : Prop := rankOf a.2 ≤ rankOf b.2

instance : DecidableRel rankLE := fun a b => by unfold rankLE; infer_instance

/-- An admissible output of `data.sort_values("priority")` (dedup.py:40-41):
a permutation of the annotated input frame that is nondecreasing in mapped
priority, NaN last (rank 1000).  This is everything pandas guarantees — the
default `kind='quicksort'` is documented as unstable, so the relative order
of rows with equal priority is unspecified. -/
def SortedByPriority (l : List Row) (s : List IRow) : Prop :=
  s.Perm l.enum ∧ s.Pairwise rankLE

/-- The part of `Deduplicator.deduplicate` downstream of the sort
(dedup.py:44-58), applied to a given sorted order: `duplicated(keep="first")`
marking and the partition into retained rows and duplicates. -/
def dedupPartitionOf (s : List IRow) : List IRow × List IRow :=
  (((markDups [] s).filter fun p => !p.2).map Prod.fst,
   ((markDups [] s).filter fun p => p.2).map Prod.fst)

/- ---------------- TransactionClassifier (classifier.py) -------------------- -/

/-- `TransactionClassifier.CATEGORY_RULES` (classifier.py:12-56), in
declaration order. -/
def CATEGORY_RULES : List (String × List String) :=
  [("餐饮美食",
    ["餐厅", "饭店", "快餐", "外卖", "美食", "小吃", "火锅", "烧烤",
     "咖啡", "奶茶", "饮品", "点心", "面包", "蛋糕", "零食", "超市",
     "菜市场", "肉", "菜", "水果", "食品", "可口可乐", "百事",
     "星巴克", "瑞幸", "肯德基", "麦当劳", "必胜客", "汉堡王",
     "海底捞", "西贝", "真功夫", "永和大王"]),
   ("购物消费",
    ["淘宝", "天猫", "京东", "拼多多", "苏宁", "国美", "百货", "商场",
     "超市", "便利店", "服饰", "服装", "鞋", "包", "化妆品", "护肤品",
     "日用品", "家居", "家电", "数码", "手机", "电脑", "相机"]),
   ("交通出行",
    ["滴滴", "Uber", "出租车", "网约车", "地铁", "公交", "火车", "高铁",
     "飞机", "机票", "船票", "加油", "充电", "停车", "高速", "过路费",
     "租车", "共享单车", "摩拜", "ofo", "哈啰", "美团打车"]),
   ("休闲娱乐",
    ["电影", "影院", "KTV", "网吧", "游戏", " Steam", "腾讯游戏",
     "网易游戏", "爱奇艺", "腾讯视频", "优酷", "芒果", "哔哩哔哩",
     "音乐", " Spotify", "QQ音乐", "网易云音乐", "健身", "运动",
     "旅游", "景点", "酒店", "民宿", "度假"]),
   ("医疗健康",
    ["医院", "诊所", "药店", "药房", "挂号", "体检", "疫苗", "医疗",
     "眼镜", "口腔", "牙科", "中医", "按摩", "保健"]),
   ("教育培训",
    ["教育", "培训", "学校", "课程", "书籍", "图书", "出版社",
     "在线教育", "网课", "辅导", "考试", "学费", "知识付费"]),
   ("房屋物业",
    ["房租", "物业", "水电", "燃气", "采暖", "宽带", "话费", "充值",
     "联通", "移动", "电信", "水电煤", "维修", "装修", "家具"]),
   ("人情往来",
    ["红包", "转账", "送礼", "礼物", "礼金", "婚庆", "生日",
     "节日", "春节", "中秋", "国庆"]),
   ("金融服务",
    ["理财", "基金", "股票", "证券", "保险", "贷款", "还款",
     "信用卡", "花呗", "借呗", "白条", "分期"])]

/-- `_classify_transaction` (classifier.py:96-115): concatenate the non-null
商品描述, 对方, 原始描述, 类型 fields separated by spaces, strip, lower. -/
def combinedTextOf (r : Row) : String :=
  lowerStr (trimChars
    (([r.desc, r.counterparty, r.rawDesc, r.typ]).foldl
      (fun acc v =>
        match v with
        | some s => acc ++ " " ++ s
        | none => acc) ""))

/-- `_classify_transaction` (classifier.py:96-124): patterns are the keywords
compiled with `re.IGNORECASE` (all are literals, so matching is
case-insensitive substring search); the first category with a matching
keyword wins, otherwise 未分类. -/
def classifyTransaction (r : Row) : String :=
  let text := combinedTextOf r
  match CATEGORY_RULES.find? (fun cr =>
    cr.2.any fun kw => strContainsSub text (lowerStr kw)) with
  | some cr => cr.1
  | none => "未分类"

/-- Per-row lambda of `TransactionClassifier.classify` (classifier.py:86-90):
keep the category unless it is literally 未分类 (a NaN category is also
kept, since `NaN != "未分类"` is true). -/
def classifyRow (r : Row) : Row :=
  if r.category = some "未分类" then
    { r with category := some (classifyTransaction r) }
  else r

/-- `TransactionClassifier.classify` (classifier.py:70-94) for frames that
carry the 分类 column (always present in the canonical schema): empty
passthrough, else the row lambda applied to every row. -/
def classify (l : List Row) : List Row :=
  if l.isEmpty then l else l.map classifyRow

/- ---------------- sample rows for concrete instantiations ------------------ -/

/-- A wallet-app (微信) expense row. -/
def sampleWechatRow : Row :=
  { time := some ⟨2024, 3, 5, 10, 30, 0⟩
    platform := "微信"
    typ := none
    counterparty := some "Coffee Shop"
    amount := some (-35)
    direction := "支出"
    desc := none
    category := some "未分类"
    rawDesc := none }

/-- The same purchase as seen on the linked bank (建设银行) statement: same
minute, same absolute amount, same counterparty, different seconds. -/
def sampleBankRow : Row :=
  { sampleWechatRow with platform := "建设银行", time := some ⟨2024, 3, 5, 10, 30, 45⟩ }

/-- The same purchase reported by a platform absent from the priority map. -/
def sampleUnknownRow : Row :=
  { sampleWechatRow with platform := "某不知名平台" }

/-- A row whose counterparty contains the transfer keyword 充值 (top-up). -/
def sampleTransferRow : Row :=
  { sampleWechatRow with counterparty := some "手机充值中心" }

/-- A row that already carries a non-sentinel category. -/
def sampleCategorizedRow : Row :=
  { sampleWechatRow with category := some "餐饮美食" }

/-- Two equal-priority wallet-app rows sharing one dedup key (they differ
only in description, which the key ignores). -/
def cexRow0 : Row := { sampleWechatRow with desc := some "款式A" }

def cexRow1 : Row := { sampleWechatRow with desc := some "款式B" }

/-- One admissible output of the priority sort for `[cexRow0, cexRow1]`: the
tied rows kept in original order. -/
def cexSort1 : List IRow := [(0, cexRow0), (1, cexRow1)]

/-- Another admissible output of the same sort: the tied rows swapped. -/
def cexSort2 : List IRow := [(1, cexRow1), (0, cexRow0)]

/- ======================= theorems ========================================== -/

/- ---------------- C8: idempotent sign reconciliation ----------------------- -/

/-- C8: the sign-reconciliation step of normalization is idempotent — for
every amount and direction flag, applying `reconcileSign` twice yields the
same amount as applying it once. -/
theorem sign_reconcile_idempotent (dir : String) (a : ℚ) :
    reconcileSign dir (reconcileSign dir a) = reconcileSign dir a := by
  unfold reconcileSign
  by_cases h1 : dir = "支出"
  · simp [h1, abs_of_nonpos (neg_nonpos.mpr (abs_nonneg a))]
  · by_cases h2 : dir = "收入"
    · simp [h1, h2, abs_abs]
    · simp [h1, h2]

/-- Witness: the idempotence theorem applied at a concrete amount. -/
theorem sign_reconcile_idempotent_witness :
    reconcileSign "支出" (reconcileSign "支出" 7) = reconcileSign "支出" (7 : ℚ) :=
  sign_reconcile_idempotent "支出" 7

/- ---------------- C4: sign invariant post-normalization -------------------- -/

/-- C4 counterexample: the claimed biconditional `direction = 支出 ↔
amount < 0` fails on the code — a raw amount that coerces to zero (NaN →
`fillna(0)`, or a literal 0) keeps amount 0 under an expense direction, and a
direction outside {支出, 收入} keeps a negative amount without the expense
flag. -/
theorem sign_invariant_cex :
    normalizedAmount "支出" none = 0 ∧
    ¬ ("支出" = "支出" ↔ normalizedAmount "支出" none < 0) ∧
    normalizedAmount "不计收支" (some (-5)) < 0 ∧ "不计收支" ≠ "支出" := by
  have e1 : ("不计收支" : String) ≠ "支出" := by decide
  have e2 : ("不计收支" : String) ≠ "收入" := by decide
  refine ⟨?_, ?_, ?_, e1⟩
  · norm_num [normalizedAmount, reconcileSign]
  · norm_num [normalizedAmount, reconcileSign]
  · norm_num [normalizedAmount, reconcileSign, e1, e2]

/-- C4 amended: post-normalization an expense direction forces a nonpositive
amount and an income direction a nonnegative one; the claimed biconditionals
hold whenever the direction is 支出 or 收入 and the normalized amount is
nonzero. -/
theorem sign_invariant_amended (dir : String) (rawAmount : Option ℚ) :
    (dir = "支出" → normalizedAmount dir rawAmount ≤ 0) ∧
    (dir = "收入" → 0 ≤ normalizedAmount dir rawAmount) ∧
    ((dir = "支出" ∨ dir = "收入") → normalizedAmount dir rawAmount ≠ 0 →
      ((dir = "支出" ↔ normalizedAmount dir rawAmount < 0) ∧
       (dir = "收入" ↔ 0 < normalizedAmount dir rawAmount))) := by
  set a := rawAmount.getD 0 with ha
  have hval : normalizedAmount dir rawAmount = reconcileSign dir a := rfl
  by_cases h1 : dir = "支出"
  · have hv : normalizedAmount dir rawAmount = -|a| := by
      rw [hval, reconcileSign, if_pos h1]
    have habs : -|a| ≤ 0 := neg_nonpos.mpr (abs_nonneg a)
    subst h1
    refine ⟨fun _ => hv ▸ habs, fun hcon => absurd hcon (by decide), fun _ hne => ?_⟩
    rw [hv] at hne ⊢
    have hlt : -|a| < 0 := lt_of_le_of_ne habs hne
    exact ⟨⟨fun _ => hlt, fun _ => rfl⟩,
      ⟨fun hcon => absurd hcon (by decide), fun hpos => absurd hpos (not_lt.mpr hlt.le)⟩⟩
  · by_cases h2 : dir = "收入"
    · have hv : normalizedAmount dir rawAmount = |a| := by
        rw [hval, reconcileSign, if_neg h1, if_pos h2]
      subst h2
      refine ⟨fun hcon => absurd hcon (by decide), fun _ => hv ▸ abs_nonneg a,
        fun _ hne => ?_⟩
      rw [hv] at hne ⊢
      have hpos : 0 < |a| := lt_of_le_of_ne (abs_nonneg a) (Ne.symm hne)
      exact ⟨⟨fun hcon => absurd hcon (by decide),
          fun hneg => absurd hneg (not_lt.mpr (abs_nonneg a))⟩,
        ⟨fun _ => hpos, fun _ => rfl⟩⟩
    · exact ⟨fun hcon => absurd hcon h1, fun hcon => absurd hcon h2,
        fun hor _ => absurd hor (by rintro (h | h); exacts [h1 h, h2 h])⟩

/-- Witness: the amended sign invariant applied at a concrete expense row. -/
theorem sign_invariant_amended_witness :
    normalizedAmount "支出" (some (-3)) ≤ 0 :=
  (sign_invariant_amended "支出" (some (-3))).1 rfl

/- ---------------- C9: currency-string amount scenario ---------------------- -/

/-- C9: evaluation of the amount pipelines at the raw value `"¥1,250.50"`
with direction 支出.  The WeChat parser strips `¥`/`￥`/`,` and produces
-1250.50, but the Alipay parser feeds the raw string straight into
`pd.to_numeric(errors="coerce")` (despite its own comment about removing
currency symbols), so the same cell coerces to NaN, is filled with 0 and the
normalized amount is 0, not -1250.50. -/
theorem currency_amount_scenario :
    wechatNormalizedAmount "¥1,250.50" "支出" = -(2501 / 2 : ℚ) ∧
    alipayNormalizedAmount "¥1,250.50" "支出" = 0 := by
  constructor
  · have h : parseDecimalParts (removeChar ',' (removeChar '￥' (removeChar '¥' "¥1,250.50"))) =
        some (false, 1250, 50, 2) := by decide
    have hc : wechatCoerceAmount "¥1,250.50" = 2501 / 2 := by
      simp only [wechatCoerceAmount, parseDecimal, h, Option.map_some', Option.getD_some,
        partsToRat]
      norm_num
    rw [wechatNormalizedAmount, hc]
    norm_num [reconcileSign, abs_of_nonpos]
  · have h : parseDecimalParts "¥1,250.50" = none := by decide
    have hc : alipayCoerceAmount "¥1,250.50" = 0 := by
      simp [alipayCoerceAmount, parseDecimal, h]
    rw [alipayNormalizedAmount, hc]
    norm_num [reconcileSign]

/- ---------------- C6: time parsing degrades to null ------------------------ -/

/-- C6: the time standardization of the CCB parser never raises — it is a
total function into `Option` — and any value unparseable both by the
platform-specific `%Y%m%d` path (taken for integer-typed cells) and by the
general fallback parser yields a null time (`none`), to be filtered later by
the Cleaner. -/
theorem ccb_time_unparseable_yields_null (v : RawTime)
    (h1 : ∀ n : Int, v = RawTime.int n → parseYYYYMMDD (toString n) = none)
    (h2 : ∀ s : String, v = RawTime.str s → generalTimeParse s = none) :
    ccbStandardizeTime v = none := by
  cases v with
  | int n => exact h1 n rfl
  | str s => exact h2 s rfl
  | null => rfl

/-- Witness: a concrete unparseable string degrades to a null time. -/
theorem ccb_time_unparseable_yields_null_witness :
    ccbStandardizeTime (RawTime.str "not a date") = none :=
  ccb_time_unparseable_yields_null (RawTime.str "not a date")
    (fun n h => nomatch h)
    (fun s h => by injection h with h'; subst h'; decide)

/- ---------------- C7: classifier never overwrites -------------------------- -/

/-- C7: a transaction whose category is already set to a value different from
the 未分类 sentinel is returned unchanged (same position, same row) by
`TransactionClassifier.classify`. -/
theorem classifier_non_overwrite (l : List Row) (i : Nat) (r : Row)
    (hget : l[i]? = some r) (c : String) (hc : r.category = some c)
    (hne : c ≠ "未分类") :
    (classify l)[i]? = some r := by
  have hne' : r.category ≠ some "未分类" := by
    rw [hc]; intro hcon; exact hne (Option.some.injEq _ _ ▸ hcon)
  have hrow : classifyRow r = r := by rw [classifyRow, if_neg hne']
  have hl : l.isEmpty = false := by
    cases l with
    | nil => simp at hget
    | cons a as => rfl
  rw [classify, if_neg (by simp [hl])]
  rw [List.getElem?_map, hget, Option.map_some', hrow]

/-- Witness: a concrete already-categorized row survives classification
unchanged. -/
theorem classifier_non_overwrite_witness :
    (classify [sampleCategorizedRow])[0]? = some sampleCategorizedRow :=
  classifier_non_overwrite [sampleCategorizedRow] 0 sampleCategorizedRow rfl
    "餐饮美食" rfl (by decide)

/- ---------------- C3 / C5: cleaner invariants ------------------------------ -/

/-- `drop_duplicates` returns a sublist of its input. -/
theorem dropDupRows_sublist (seen : List Row) (l : List Row) :
    List.Sublist (dropDupRows seen l) l := by
  induction l generalizing seen with
  | nil => simp [dropDupRows]
  | cons x xs ih =>
    rw [dropDupRows]
    split
    · exact (ih seen).cons x
    · exact (ih (x :: seen)).cons₂ x

/-- C3: the output of `DataCleaner.clean` is a sublist of its input — every
output row is one of the input rows, unmodified and in input order, with no
new rows — and every surviving row has a non-null time and a strictly
negative (hence nonzero) amount. -/
theorem cleaner_invariant (l : List Row) :
    List.Sublist (clean l) l ∧
    ∀ r ∈ clean l, r.time.isSome = true ∧ ∃ a, r.amount = some a ∧ a < 0 := by
  cases hl : l.isEmpty with
  | true =>
    rw [List.isEmpty_iff] at hl
    subst hl
    exact ⟨by rw [clean]; exact List.Sublist.refl [], by rw [clean]; simp⟩
  | false =>
    rw [clean, if_neg (by simp [hl])]
    constructor
    · exact (dropDupRows_sublist _ _).trans
        ((List.filter_sublist _).trans ((List.filter_sublist _).trans
          ((List.filter_sublist _).trans (List.filter_sublist _))))
    · intro r hr
      have h4 := (dropDupRows_sublist _ _).subset hr
      have h3 := List.mem_filter.mp h4
      have h2 := List.mem_filter.mp h3.1
      have hb := List.mem_filter.mp h2.1
      have h1 := List.mem_filter.mp hb.1
      have htime : r.time.isSome = true := by
        have := h1.2
        rw [Bool.and_eq_true] at this
        exact this.1
      refine ⟨htime, ?_⟩
      cases hamt : r.amount with
      | none => rw [hamt] at h2; simp at h2
      | some a =>
        rw [hamt] at h2
        exact ⟨a, rfl, of_decide_eq_true h2.2⟩

/-- Witness: the cleaner invariant applied to a concrete one-row frame. -/
theorem cleaner_invariant_witness :
    List.Sublist (clean [sampleWechatRow]) [sampleWechatRow] :=
  (cleaner_invariant [sampleWechatRow]).1

/-- C5: a row one of whose checked fields (原始描述, 商品描述, 对方, 类型,
分类) contains a transfer keyword as a case-insensitive substring never
appears in the output of `DataCleaner.clean`, regardless of its amount or
category. -/
theorem transfer_rows_removed (l : List Row) (r : Row) (hr : r ∈ l)
    (h : ∃ s, some s ∈ checkedFieldsOf r ∧
      ∃ kw ∈ TRANSFER_KEYWORDS, strContainsSub (lowerStr s) (lowerStr kw) = true) :
    r ∉ clean l := by
  intro hmem
  have htr : isTransferRow r = true := by
    obtain ⟨s, hs, kw, hkw, hsub⟩ := h
    unfold isTransferRow
    rw [List.any_eq_true]
    exact ⟨some s, hs, by rw [List.any_eq_true]; exact ⟨kw, hkw, hsub⟩⟩
  cases hl : l.isEmpty with
  | true =>
    rw [List.isEmpty_iff] at hl
    subst hl
    rw [clean] at hmem
    simp at hmem
  | false =>
    rw [clean, if_neg (by simp [hl])] at hmem
    have h4 := (dropDupRows_sublist _ _).subset hmem
    have h3 := (List.mem_filter.mp h4).1
    have h2 := (List.mem_filter.mp h3).1
    have hb := (List.mem_filter.mp h2).2
    rw [htr] at hb
    simp at hb

/-- Witness: a concrete row whose counterparty contains the 充值 (top-up)
keyword is removed by the cleaner. -/
theorem transfer_rows_removed_witness :
    sampleTransferRow ∉ clean [sampleTransferRow] :=
  transfer_rows_removed [sampleTransferRow] sampleTransferRow (by decide)
    ⟨"手机充值中心", by decide, "充值", by decide, by decide⟩

/- ---------------- C1 / C2 / C10: deduplicator helpers ---------------------- -/

/-- The marked rows project back onto the sorted rows. -/
theorem markDups_map_fst (seen : List (Option (Nat × Nat × Nat × Nat × Nat) × Option ℤ × String))
    (l : List IRow) : (markDups seen l).map Prod.fst = l := by
  induction l generalizing seen with
  | nil => rfl
  | cons x xs ih => simp [markDups, ih]

/-- Duplicate marking distributes over append, accumulating the keys of the
prefix into the seen set. -/
theorem markDups_append (seen : List (Option (Nat × Nat × Nat × Nat × Nat) × Option ℤ × String))
    (a b : List IRow) :
    markDups seen (a ++ b) =
      markDups seen a ++ markDups ((a.map keyOf).reverse ++ seen) b := by
  induction a generalizing seen with
  | nil => simp [markDups]
  | cons x xs ih =>
    show (x, decide (keyOf x ∈ seen)) :: markDups (keyOf x :: seen) (xs ++ b) =
      (x, decide (keyOf x ∈ seen)) :: (markDups (keyOf x :: seen) xs ++
        markDups (((x :: xs).map keyOf).reverse ++ seen) b)
    rw [ih]
    have hseen : ((x :: xs).map keyOf).reverse ++ seen =
        (xs.map keyOf).reverse ++ (keyOf x :: seen) := by
      simp [List.append_assoc]
    rw [hseen]

/-- The positions attached by `enum` are distinct. -/
theorem enum_fst_nodup (l : List Row) : (l.enum.map Prod.fst).Nodup := by
  rw [List.enum_map_fst]; exact List.nodup_range _

theorem enum_nodup (l : List Row) : l.enum.Nodup :=
  List.Nodup.of_map Prod.fst (enum_fst_nodup l)

theorem sortRows_enum_nodup (l : List Row) : (sortRows l.enum).Nodup :=
  (List.perm_insertionSort lexLE l.enum).nodup_iff.mpr (enum_nodup l)

/-- In a marking whose rows are distinct, each row carries a unique mark. -/
theorem mark_unique {m : List (IRow × Bool)} (hnd : (m.map Prod.fst).Nodup)
    {x : IRow} {b b' : Bool} (h1 : (x, b) ∈ m) (h2 : (x, b') ∈ m) : b = b' :=
  congrArg Prod.snd (List.inj_on_of_nodup_map hnd h1 h2 rfl)

/-- Membership in the retained partition is membership with mark `false`. -/
theorem mem_filter_not_map {m : List (IRow × Bool)} {x : IRow} :
    x ∈ (m.filter fun p => !p.2).map Prod.fst ↔ (x, false) ∈ m := by
  constructor
  · intro h
    obtain ⟨p, hp, hpx⟩ := List.mem_map.mp h
    obtain ⟨hpm, hpb⟩ := List.mem_filter.mp hp
    have hp2 : p.2 = false := by
      cases hb : p.2
      · rfl
      · rw [hb] at hpb; simp at hpb
    have hpeq : p = (x, false) := by
      cases p with
      | mk p1 p2 => simp_all
    rw [hpeq] at hpm
    exact hpm
  · intro h
    exact List.mem_map.mpr ⟨(x, false), List.mem_filter.mpr ⟨h, rfl⟩, rfl⟩

/-- Membership in the duplicates partition is membership with mark `true`. -/
theorem mem_filter_yes_map {m : List (IRow × Bool)} {x : IRow} :
    x ∈ (m.filter fun p => p.2).map Prod.fst ↔ (x, true) ∈ m := by
  constructor
  · intro h
    obtain ⟨p, hp, hpx⟩ := List.mem_map.mp h
    obtain ⟨hpm, hpb⟩ := List.mem_filter.mp hp
    have hpeq : p = (x, true) := by
      cases p with
      | mk p1 p2 => simp_all
    rw [hpeq] at hpm
    exact hpm
  · intro h
    exact List.mem_map.mpr ⟨(x, true), List.mem_filter.mpr ⟨h, rfl⟩, rfl⟩

/-- Core characterization of `Deduplicator.deduplicate`: a row lands in the
retained frame iff it is the strict (priority, original position) minimum of
its dedup-key group, and in the duplicates frame otherwise. -/
theorem retained_iff (l : List Row) (x : IRow) (hx : x ∈ l.enum) :
    (x ∈ (deduplicateIdx l).1 ↔ IsGroupMin l x) ∧
    (x ∈ (deduplicateIdx l).2 ↔ ¬ IsGroupMin l x) := by
  have hlne : l ≠ [] := by rintro rfl; simp at hx
  have hd : deduplicateIdx l =
      (((markDups [] (sortRows l.enum)).filter fun p => !p.2).map Prod.fst,
       ((markDups [] (sortRows l.enum)).filter fun p => p.2).map Prod.fst) := by
    rw [deduplicateIdx, if_neg hlne]
  set S := sortRows l.enum with hS
  set M := markDups [] S with hMdef
  have hperm : S.Perm l.enum := List.perm_insertionSort lexLE l.enum
  have hndS : S.Nodup := sortRows_enum_nodup l
  have hndM : (M.map Prod.fst).Nodup := by
    rw [hMdef, markDups_map_fst]; exact hndS
  have hxS : x ∈ S := hperm.mem_iff.mpr hx
  obtain ⟨pre, suf, hsplit⟩ := List.append_of_mem hxS
  have hsorted : List.Sorted lexLE S := List.sorted_insertionSort lexLE l.enum
  have hinj : ∀ y ∈ l.enum, ∀ z ∈ l.enum, Prod.fst y = Prod.fst z → y = z :=
    fun y hy z hz h => List.inj_on_of_nodup_map (enum_fst_nodup l) hy hz h
  -- decompose the sortedness and distinctness along the split
  rw [hsplit] at hsorted hndS
  obtain ⟨hp1, hp2, hp12⟩ := List.pairwise_append.mp hsorted
  have hxsuf : ∀ y ∈ suf, lexLE x y := (List.pairwise_cons.mp hp2).1
  obtain ⟨hndpre, hndxs, hdisj⟩ := List.nodup_append.mp hndS
  have hxpre : x ∉ pre := fun hmem => hdisj hmem (List.mem_cons_self x suf)
  -- the mark that x receives
  have hMsplit : M = markDups [] pre ++
      ((x, decide (keyOf x ∈ (pre.map keyOf).reverse)) ::
        markDups (keyOf x :: (pre.map keyOf).reverse) suf) := by
    rw [hMdef, hsplit, markDups_append]
    simp [markDups]
  have hmemM : (x, decide (keyOf x ∈ (pre.map keyOf).reverse)) ∈ M := by
    rw [hMsplit]
    exact List.mem_append_right _ (List.mem_cons_self _ _)
  -- NoEarlier: no row before x in the sorted order shares its key
  have hfalse_iff : ((x, false) ∈ M) ↔ ∀ y ∈ pre, keyOf y ≠ keyOf x := by
    constructor
    · intro hf
      have hb := mark_unique hndM hf hmemM
      intro y hy hkey
      have : keyOf x ∈ (pre.map keyOf).reverse := by
        rw [List.mem_reverse]
        exact List.mem_map.mpr ⟨y, hy, hkey⟩
      rw [decide_eq_true this] at hb
      exact Bool.false_ne_true hb
    · intro hne
      have : ¬ keyOf x ∈ (pre.map keyOf).reverse := by
        rw [List.mem_reverse]
        intro hmem
        obtain ⟨y, hy, hkey⟩ := List.mem_map.mp hmem
        exact hne y hy hkey
      have hb : decide (keyOf x ∈ (pre.map keyOf).reverse) = false :=
        decide_eq_false this
      rw [hb] at hmemM
      exact hmemM
  have htrue_iff : ((x, true) ∈ M) ↔ ¬ ∀ y ∈ pre, keyOf y ≠ keyOf x := by
    constructor
    · intro ht hall
      have : (x, false) ∈ M := hfalse_iff.mpr hall
      exact absurd (mark_unique hndM ht this) (by decide)
    · intro hnall
      cases hb : decide (keyOf x ∈ (pre.map keyOf).reverse) with
      | true => rw [hb] at hmemM; exact hmemM
      | false =>
        exfalso
        apply hnall
        have hnotmem := of_decide_eq_false hb
        intro y hy hkey
        exact hnotmem (by rw [List.mem_reverse]; exact List.mem_map.mpr ⟨y, hy, hkey⟩)
  -- NoEarlier is exactly group minimality
  have hmin_iff : (∀ y ∈ pre, keyOf y ≠ keyOf x) ↔ IsGroupMin l x := by
    constructor
    · intro hne y hy hynex hkey
      have hyS : y ∈ S := hperm.mem_iff.mpr hy
      rw [hsplit] at hyS
      rcases List.mem_append.mp hyS with hyp | hyx
      · exact absurd hkey (hne y hyp)
      · rcases List.mem_cons.mp hyx with hyeq | hysuf
        · exact absurd hyeq hynex
        · have hle := hxsuf y hysuf
          have hfne : Prod.fst x ≠ Prod.fst y := by
            intro heq
            exact hynex (hinj y hy x (hperm.mem_iff.mp hxS) heq.symm)
          rw [lexLE] at hle
          rcases hle with hlt | ⟨heq, hle'⟩
          · exact Or.inl hlt
          · exact Or.inr ⟨heq, lt_of_le_of_ne hle' hfne⟩
    · intro hmin y hy hkey
      have hyS : y ∈ S := by rw [hsplit]; exact List.mem_append_left _ hy
      have hyE : y ∈ l.enum := hperm.mem_iff.mp hyS
      have hynex : y ≠ x := by
        rintro rfl
        exact hxpre hy
      have hstrict := hmin y hyE hynex hkey
      have hle : lexLE y x := hp12 y hy x (List.mem_cons_self x suf)
      rw [lexLE] at hle
      omega
  rw [hd]
  constructor
  · rw [mem_filter_not_map, hfalse_iff, hmin_iff]
  · rw [mem_filter_yes_map, htrue_iff]
    constructor
    · intro h hmin; exact h (hmin_iff.mpr hmin)
    · intro h hne; exact h (hmin_iff.mp hne)

/-- The two indexed partitions together are a permutation of the annotated
input frame. -/
theorem deduplicateIdx_perm (l : List Row) :
    ((deduplicateIdx l).1 ++ (deduplicateIdx l).2).Perm l.enum := by
  by_cases hl : l = []
  · subst hl
    rw [deduplicateIdx, if_pos rfl]
    rfl
  · rw [deduplicateIdx, if_neg hl]
    have hstep : (((markDups [] (sortRows l.enum)).filter fun p => !p.2) ++
        ((markDups [] (sortRows l.enum)).filter fun p => p.2)).Perm
        (markDups [] (sortRows l.enum)) :=
      List.perm_append_comm.trans
        (List.filter_append_perm (fun p : IRow × Bool => p.2) _)
    have h2 := hstep.map Prod.fst
    rw [List.map_append, markDups_map_fst] at h2
    exact h2.trans (List.perm_insertionSort lexLE l.enum)

/- ---------------- C1: dedup completeness ----------------------------------- -/

/-- C1: `Deduplicator.deduplicate` partitions its input — the retained rows
and the duplicates together are a permutation (multiset equality) of the
input rows, no input position appears in both parts, and the empty input
yields two empty frames. -/
theorem dedup_completeness (l : List Row) :
    ((deduplicate l).1 ++ (deduplicate l).2).Perm l ∧
    (∀ p : IRow, p ∈ (deduplicateIdx l).1 → p ∉ (deduplicateIdx l).2) ∧
    deduplicate ([] : List Row) = ([], []) := by
  refine ⟨?_, ?_, rfl⟩
  · have h := (deduplicateIdx_perm l).map Prod.snd
    rw [List.map_append, List.enum_map_snd] at h
    exact h
  · intro p hp1 hp2
    by_cases hl : l = []
    · subst hl
      rw [deduplicateIdx, if_pos rfl] at hp1
      exact absurd hp1 (List.not_mem_nil p)
    · rw [deduplicateIdx, if_neg hl] at hp1 hp2
      have hndM : ((markDups [] (sortRows l.enum)).map Prod.fst).Nodup := by
        rw [markDups_map_fst]; exact sortRows_enum_nodup l
      have h1 : (p, false) ∈ markDups [] (sortRows l.enum) := mem_filter_not_map.mp hp1
      have h2 : (p, true) ∈ markDups [] (sortRows l.enum) := mem_filter_yes_map.mp hp2
      exact absurd (mark_unique hndM h1 h2) (by decide)

/-- Witness: dedup completeness at a concrete two-row frame. -/
theorem dedup_completeness_witness :
    ((deduplicate [sampleWechatRow, sampleBankRow]).1 ++
      (deduplicate [sampleWechatRow, sampleBankRow]).2).Perm
      [sampleWechatRow, sampleBankRow] :=
  (dedup_completeness [sampleWechatRow, sampleBankRow]).1

/- ---------------- C2: priority-based retention ----------------------------- -/

/-- The mark a row receives from `duplicated(keep="first")` along a split of
the scanned order: `false` exactly when no earlier row shares its key. -/
theorem mark_of_split (s pre suf : List IRow) (x : IRow)
    (hnd : s.Nodup) (hsplit : s = pre ++ x :: suf) :
    (((x, false) ∈ markDups [] s) ↔ ∀ y ∈ pre, keyOf y ≠ keyOf x) ∧
    (((x, true) ∈ markDups [] s) ↔ ¬ ∀ y ∈ pre, keyOf y ≠ keyOf x) := by
  have hndM : ((markDups [] s).map Prod.fst).Nodup := by
    rw [markDups_map_fst]; exact hnd
  have hMsplit : markDups [] s = markDups [] pre ++
      ((x, decide (keyOf x ∈ (pre.map keyOf).reverse)) ::
        markDups (keyOf x :: (pre.map keyOf).reverse) suf) := by
    rw [hsplit, markDups_append]
    simp [markDups]
  have hmemM : (x, decide (keyOf x ∈ (pre.map keyOf).reverse)) ∈ markDups [] s := by
    rw [hMsplit]
    exact List.mem_append_right _ (List.mem_cons_self _ _)
  have hfalse_iff : ((x, false) ∈ markDups [] s) ↔ ∀ y ∈ pre, keyOf y ≠ keyOf x := by
    constructor
    · intro hf y hy hkey
      have hb := mark_unique hndM hf hmemM
      have hm : keyOf x ∈ (pre.map keyOf).reverse := by
        rw [List.mem_reverse]
        exact List.mem_map.mpr ⟨y, hy, hkey⟩
      rw [decide_eq_true hm] at hb
      exact Bool.false_ne_true hb
    · intro hne
      have hnm : ¬ keyOf x ∈ (pre.map keyOf).reverse := by
        rw [List.mem_reverse]
        intro hmem
        obtain ⟨y, hy, hkey⟩ := List.mem_map.mp hmem
        exact hne y hy hkey
      have hb : decide (keyOf x ∈ (pre.map keyOf).reverse) = false :=
        decide_eq_false hnm
      rw [hb] at hmemM
      exact hmemM
  refine ⟨hfalse_iff, ?_, ?_⟩
  · intro ht hall
    exact absurd (mark_unique hndM ht (hfalse_iff.mpr hall)) (by decide)
  · intro hnall
    cases hb : decide (keyOf x ∈ (pre.map keyOf).reverse) with
    | true => rw [hb] at hmemM; exact hmemM
    | false =>
      exfalso
      apply hnall
      have hnotmem := of_decide_eq_false hb
      intro y hy hkey
      exact hnotmem (by rw [List.mem_reverse]; exact List.mem_map.mpr ⟨y, hy, hkey⟩)

/-- The first row of the scanned order bearing a given dedup key is marked
`false` by `duplicated(keep="first")`. -/
theorem first_key_mark_false (k : Option (Nat × Nat × Nat × Nat × Nat) × Option ℤ × String)
    (s : List IRow) :
    ∀ seen, k ∉ seen → (∃ z ∈ s, keyOf z = k) →
      ∃ z, (z, false) ∈ markDups seen s ∧ keyOf z = k := by
  induction s with
  | nil =>
    intro seen _ hex
    obtain ⟨z, hz, _⟩ := hex
    exact absurd hz (List.not_mem_nil z)
  | cons w ws ih =>
    intro seen hk hex
    by_cases hw : keyOf w = k
    · refine ⟨w, ?_, hw⟩
      have hb : decide (keyOf w ∈ seen) = false :=
        decide_eq_false (by rw [hw]; exact hk)
      show (w, false) ∈ (w, decide (keyOf w ∈ seen)) :: markDups (keyOf w :: seen) ws
      rw [hb]
      exact List.mem_cons_self _ _
    · obtain ⟨z, hz, hzk⟩ := hex
      have hz' : z ∈ ws := by
        rcases List.mem_cons.mp hz with he | h
        · exact absurd (he ▸ hzk) hw
        · exact h
      have hk' : k ∉ keyOf w :: seen := by
        intro hmem
        rcases List.mem_cons.mp hmem with he | h
        · exact hw he.symm
        · exact hk h
      obtain ⟨z', hz'', hzk'⟩ := ih (keyOf w :: seen) hk' ⟨z, hz', hzk⟩
      exact ⟨z', List.mem_cons_of_mem _ hz'', hzk'⟩

/-- The executable stable-sort model is one admissible output of the priority
sort (so the parametric theorems below also cover `deduplicateIdx`). -/
theorem sortRows_sortedByPriority (l : List Row) :
    SortedByPriority l (sortRows l.enum) := by
  constructor
  · exact List.perm_insertionSort lexLE l.enum
  · refine List.Pairwise.imp ?_ (List.sorted_insertionSort lexLE l.enum)
    intro a b hab
    rw [lexLE] at hab
    rcases hab with h1 | ⟨h1, -⟩
    · exact le_of_lt h1
    · exact le_of_eq h1

/-- C2 counterexample: the original-input-order tie-break asserted by the
claim is not a property of the program.  `sort_values("priority")` uses the
default unstable quicksort, so it guarantees only a permutation that is
nondecreasing in priority.  For one concrete frame holding two
equal-priority rows with the same dedup key, two orders that both satisfy
that guarantee classify row 0 oppositely: under one admissible order it is
retained, under the other it is the duplicate. -/
theorem dedup_tiebreak_cex :
    SortedByPriority [cexRow0, cexRow1] cexSort1 ∧
    SortedByPriority [cexRow0, cexRow1] cexSort2 ∧
    (0, cexRow0) ∈ (dedupPartitionOf cexSort1).1 ∧
    (0, cexRow0) ∈ (dedupPartitionOf cexSort2).2 := by
  have hk : keyOf ((1 : Nat), cexRow1) = keyOf ((0 : Nat), cexRow0) := rfl
  refine ⟨⟨by decide, by decide⟩, ⟨by decide, by decide⟩, ?_, ?_⟩
  · apply mem_filter_not_map.mpr
    have e1 : markDups [] cexSort1 =
        (((0 : Nat), cexRow0), false) ::
          [(((1 : Nat), cexRow1),
            decide (keyOf ((1 : Nat), cexRow1) ∈ [keyOf ((0 : Nat), cexRow0)]))] := rfl
    rw [e1]
    exact List.mem_cons_self _ _
  · apply mem_filter_yes_map.mpr
    have hmem : keyOf ((0 : Nat), cexRow0) ∈ [keyOf ((1 : Nat), cexRow1)] :=
      List.mem_singleton.mpr hk.symm
    have e2 : markDups [] cexSort2 =
        [(((1 : Nat), cexRow1), false), (((0 : Nat), cexRow0), true)] := by
      show [(((1 : Nat), cexRow1), decide (keyOf ((1 : Nat), cexRow1) ∈ ([] : List _))),
            (((0 : Nat), cexRow0),
              decide (keyOf ((0 : Nat), cexRow0) ∈ [keyOf ((1 : Nat), cexRow1)]))] = _
      rw [decide_eq_true hmem]
      rfl
    rw [e2]
    exact List.mem_cons_of_mem _ (List.mem_cons_self _ _)

/-- C2 amended: for every output the priority sort is allowed to produce —
any permutation nondecreasing in mapped priority (微信=1, 支付宝=2,
建设银行=3, others last) — exactly one transaction per dedup-key group is
retained and all other group members are classified as duplicates; the
retained one always carries the lowest priority rank present in its group,
and any member with a higher rank than some other group member is always a
duplicate.  Which of several members tied on the lowest rank is retained is
not determined by the program. -/
theorem dedup_priority_minimal_retained (l : List Row) (s : List IRow)
    (hs : SortedByPriority l s) (x : IRow) (hx : x ∈ l.enum) :
    (platformPriority "微信" = some 1 ∧ platformPriority "支付宝" = some 2 ∧
     platformPriority "建设银行" = some 3) ∧
    (x ∈ (dedupPartitionOf s).1 →
      ∀ y ∈ l.enum, keyOf y = keyOf x → rankOf x.2 ≤ rankOf y.2) ∧
    ((∃ y ∈ l.enum, keyOf y = keyOf x ∧ rankOf y.2 < rankOf x.2) →
      x ∈ (dedupPartitionOf s).2) ∧
    (∃ y ∈ l.enum, keyOf y = keyOf x ∧ y ∈ (dedupPartitionOf s).1) ∧
    (∀ y ∈ l.enum, keyOf y = keyOf x → y ∈ (dedupPartitionOf s).1 →
      x ∈ (dedupPartitionOf s).1 → y = x) := by
  obtain ⟨hperm, hpw⟩ := hs
  have hnd : s.Nodup := hperm.nodup_iff.mpr (enum_nodup l)
  have hxS : x ∈ s := hperm.mem_iff.mpr hx
  refine ⟨⟨by decide, by decide, by decide⟩, ?_, ?_, ?_, ?_⟩
  · -- a retained row has minimal rank in its group
    intro hret y hy hkey
    by_cases hyx : y = x
    · rw [hyx]
    · have hf : (x, false) ∈ markDups [] s := mem_filter_not_map.mp hret
      obtain ⟨pre, suf, hsplit⟩ := List.append_of_mem hxS
      have hNE := ((mark_of_split s pre suf x hnd hsplit).1).mp hf
      have hyS : y ∈ s := hperm.mem_iff.mpr hy
      rw [hsplit] at hyS hpw
      rcases List.mem_append.mp hyS with hyp | hyx'
      · exact absurd hkey (hNE y hyp)
      · rcases List.mem_cons.mp hyx' with he | hysuf
        · exact absurd he hyx
        · obtain ⟨-, hp2, -⟩ := List.pairwise_append.mp hpw
          exact (List.pairwise_cons.mp hp2).1 y hysuf
  · -- a row outranked inside its group is always a duplicate
    rintro ⟨y, hy, hkey, hlt⟩
    obtain ⟨pre, suf, hsplit⟩ := List.append_of_mem hxS
    have hyS : y ∈ s := hperm.mem_iff.mpr hy
    rw [hsplit] at hyS hpw
    obtain ⟨-, hp2, -⟩ := List.pairwise_append.mp hpw
    have hxsuf := (List.pairwise_cons.mp hp2).1
    have hyp : y ∈ pre := by
      rcases List.mem_append.mp hyS with h | h
      · exact h
      · rcases List.mem_cons.mp h with he | hsuf
        · exact absurd hlt (by rw [he]; exact lt_irrefl _)
        · exact absurd hlt (not_lt.mpr (hxsuf y hsuf))
    apply mem_filter_yes_map.mpr
    apply ((mark_of_split s pre suf x hnd hsplit).2).mpr
    intro hall
    exact hall y hyp hkey
  · -- some member of the group is retained
    obtain ⟨z, hzm, hzk⟩ := first_key_mark_false (keyOf x) s [] (List.not_mem_nil _)
      ⟨x, hxS, rfl⟩
    have hzS : z ∈ s := by
      have hz : z ∈ (markDups [] s).map Prod.fst :=
        List.mem_map.mpr ⟨(z, false), hzm, rfl⟩
      rw [markDups_map_fst] at hz
      exact hz
    exact ⟨z, hperm.mem_iff.mp hzS, hzk, mem_filter_not_map.mpr hzm⟩
  · -- at most one member of the group is retained
    intro y hy hkey hyret hxret
    by_contra hne
    have hyS : y ∈ s := hperm.mem_iff.mpr hy
    have hf_x : (x, false) ∈ markDups [] s := mem_filter_not_map.mp hxret
    have hf_y : (y, false) ∈ markDups [] s := mem_filter_not_map.mp hyret
    obtain ⟨pre, suf, hsplit⟩ := List.append_of_mem hxS
    have hNEx := ((mark_of_split s pre suf x hnd hsplit).1).mp hf_x
    rw [hsplit] at hyS
    rcases List.mem_append.mp hyS with hyp | hyx'
    · exact hNEx y hyp hkey
    · rcases List.mem_cons.mp hyx' with he | hysuf
      · exact hne he
      · obtain ⟨t1, t2, hsuf⟩ := List.append_of_mem hysuf
        have hsplit2 : s = (pre ++ x :: t1) ++ y :: t2 := by
          rw [hsplit, hsuf, List.append_assoc]
          rfl
        have hNEy := ((mark_of_split s (pre ++ x :: t1) t2 y hnd hsplit2).1).mp hf_y
        exact hNEy x (List.mem_append_right pre (List.mem_cons_self x t1)) hkey.symm

/-- Witness: the amended priority theorem applied to a concrete frame
holding the wallet-app and bank copies of one purchase, under the executable
sort order. -/
theorem dedup_priority_minimal_retained_witness :
    platformPriority "微信" = some 1 ∧ platformPriority "支付宝" = some 2 ∧
    platformPriority "建设银行" = some 3 :=
  (dedup_priority_minimal_retained [sampleWechatRow, sampleBankRow]
    (sortRows ([sampleWechatRow, sampleBankRow]).enum)
    (sortRows_sortedByPriority [sampleWechatRow, sampleBankRow])
    (0, sampleWechatRow) (by decide)).1

/- ---------------- C10: unknown platforms sort last ------------------------- -/

/-- C10: a row whose platform is none of 微信, 支付宝, 建设银行 gets a
missing priority (`none`) from the priority map, so it sorts after every
known-platform row; whenever it shares a dedup key with a known-platform row
it is classified as a duplicate and is never retained. -/
theorem dedup_unknown_platform_duplicate (l : List Row) (i j : Nat) (r s : Row)
    (hi : (i, r) ∈ l.enum) (hj : (j, s) ∈ l.enum)
    (hunk : r.platform ≠ "微信" ∧ r.platform ≠ "支付宝" ∧ r.platform ≠ "建设银行")
    (hkn : s.platform = "微信" ∨ s.platform = "支付宝" ∨ s.platform = "建设银行")
    (hkey : dedupKeyOf r = dedupKeyOf s) :
    platformPriority r.platform = none ∧
    (i, r) ∈ (deduplicateIdx l).2 ∧ (i, r) ∉ (deduplicateIdx l).1 := by
  have hpnone : platformPriority r.platform = none := by
    rw [platformPriority, if_neg hunk.1, if_neg hunk.2.1, if_neg hunk.2.2]
  have hrrank : rankOf r = 1000 := by rw [rankOf, hpnone]; rfl
  have hsrank : rankOf s ≤ 3 := by
    rcases hkn with hk | hk | hk <;>
      simp [rankOf, platformPriority, hk]
  have hne : s ≠ r := by
    intro e
    rcases hkn with hk | hk | hk
    exacts [hunk.1 (e ▸ hk), hunk.2.1 (e ▸ hk), hunk.2.2 (e ▸ hk)]
  have hpairne : (j, s) ≠ (i, r) := fun e => hne (congrArg Prod.snd e)
  have hnotmin : ¬ IsGroupMin l (i, r) := by
    intro hmin
    have hcon := hmin (j, s) hj hpairne (by exact hkey.symm)
    simp only at hcon
    omega
  obtain ⟨hret, hdup⟩ := retained_iff l (i, r) hi
  exact ⟨hpnone, hdup.mpr hnotmin, fun hmem => hnotmin (hret.mp hmem)⟩

/-- Witness: a concrete unknown-platform copy sharing its key with a
wallet-app copy is classified as a duplicate. -/
theorem dedup_unknown_platform_duplicate_witness :
    platformPriority sampleUnknownRow.platform = none ∧
    (0, sampleUnknownRow) ∈ (deduplicateIdx [sampleUnknownRow, sampleWechatRow]).2 ∧
    (0, sampleUnknownRow) ∉ (deduplicateIdx [sampleUnknownRow, sampleWechatRow]).1 :=
  dedup_unknown_platform_duplicate [sampleUnknownRow, sampleWechatRow] 0 1
    sampleUnknownRow sampleWechatRow (by decide) (by decide)
    ⟨by decide, by decide, by decide⟩ (Or.inl rfl) rfl

end BillAnalysis
